import Mathlib

/-!
Shallow embedding of planetkit's spatial core: the chunk geometry pipeline
(`src/globe/geometry.rs`) and the cell-dweller movement helpers
(`src/cell_dweller/cell_dweller.rs`), together with models of the pieces of
the `globe` and `movement` modules that the shipped sources reference but
whose files are not part of the source tree (those definitions carry a
`Modelled from the spec:` doc comment).

Rust `i64` coordinates are embedded as `Int` (no arithmetic here ever nears
the 64-bit range), resolutions as `Nat`, and the `f64` yaw accumulator of
`pan` as `Rat` with angles measured in units of pi radians (so a hexagon
edge-angle 2*pi/6 is the rational 1/3); the claims about `pan` concern its
control structure, which is preserved exactly by this reading.
-/

namespace Planetkit

/-- Cell address on the globe: root face plus in-root grid coordinates
(`z` is the radial/depth layer). From `CellPos` as used throughout
`geometry.rs` and `cell_dweller.rs`. -/
structure CellPos where
  root : Int
  x : Int
  y : Int
  z : Int
deriving DecidableEq

/-- Voxel material. Modelled from the spec: `globe/chunk.rs` is not under
`src/`; the spec fixes the set as world-defined with at least Air and a
solid rock material (plus Water); only `Air` is inspected by the code. -/
inductive Material where
  | Air : Material
  | Solid : Material
  | Water : Material
deriving DecidableEq

/-- One voxel cell: a material plus a render-relevant scalar (shade).
Modelled from the spec: `globe/chunk.rs` is not under `src/`. -/
structure Cell where
  material : Material
  shade : Rat
deriving DecidableEq

/-- Real-space point, produced by the grid's vertex mapping functions.
Components are exact rationals standing in for the `f64 -> f32` values;
no claim inspects them. -/
def Pt3 : Type := Rat × Rat × Rat

instance : DecidableEq Pt3 := instDecidableEqProd

/-- Per-globe immutable configuration. Modelled from the spec:
`globe/spec.rs` is not under `src/`. `root_resolution` locates the
pentagons, `chunk_resolution` is the cells per chunk edge in x, y, z, and
the two vertex functions are the grid's real-space mapping (opaque to every
claim; a concrete instance supplies concrete functions). -/
structure Spec where
  root_resolution : Int × Int
  chunk_resolution : Nat × Nat × Nat
  cell_top_vertex : CellPos → Int → Pt3
  cell_bottom_vertex : CellPos → Int → Pt3

/-- A chunk: a dense block of cells anchored at `origin`. Modelled from the
spec: `globe/chunk.rs` is not under `src/`. `cells` gives the stored
content at each address of the footprint (addresses outside the footprint
are rejected by `chunkCell` below, so the values of `cells` there are
irrelevant). -/
structure Chunk where
  origin : CellPos
  cells : CellPos → Cell

/-- `Chunk::cell(pos)`. Modelled from the spec: `globe/chunk.rs` is not
under `src/`. Per the spec a chunk stores cells for `origin.{x,y,z}`
through `origin.{x,y,z} + chunk_resolution - 1` inclusive plus one extra
shared layer on the far x and y edges (not z), and an address outside that
stored footprint fails with OutOfRange (here: `none`). -/
def chunkCell (spec : Spec) (chunk : Chunk) (pos : CellPos) : Option Cell :=
  if pos.root = chunk.origin.root ∧
     chunk.origin.x ≤ pos.x ∧ pos.x ≤ chunk.origin.x + (spec.chunk_resolution.1 : Int) ∧
     chunk.origin.y ≤ pos.y ∧ pos.y ≤ chunk.origin.y + (spec.chunk_resolution.2.1 : Int) ∧
     chunk.origin.z ≤ pos.z ∧ pos.z ≤ chunk.origin.z + (spec.chunk_resolution.2.2 : Int) - 1
  then some (chunk.cells pos)
  else none

/-- Lateral neighbour offsets of a cell, including the cell itself.
Modelled from the spec: `globe/cell_shape.rs` is not under `src/`. The
spec's culling step enumerates the 6 lateral hex neighbours; `cull_cell`
in `geometry.rs` skips the `(0, 0)` self entry explicitly, so the table
contains it. -/
def NEIGHBOR_OFFSETS : List (Int × Int) :=
  [(0, 0), (1, 0), (1, 1), (0, 1), (-1, 0), (-1, -1), (0, -1)]

/-- The offsets walked by `cull_cell`'s neighbour loop, in the code's
iteration order: `d_z` in `[-1, 0, 1]` outermost, the lateral
`NEIGHBOR_OFFSETS` inner. From `geometry.rs` lines 250-262. -/
def neighborOffsets3 : List (Int × Int × Int) :=
  ([-1, 0, 1] : List Int).flatMap fun dz =>
    NEIGHBOR_OFFSETS.map fun o => (o.1, o.2, dz)

/-- Translate an address by a `(dx, dy, dz)` offset (the
`neighbour_pos` computation of `cull_cell`). -/
def offsetPos (pos : CellPos) (o : Int × Int × Int) : CellPos :=
  { pos with x := pos.x + o.1, y := pos.y + o.2.1, z := pos.z + o.2.2 }

/-- The neighbour scan of `cull_cell` (`geometry.rs` lines 251-274):
walk the offsets in order, skip the cell itself, abort with `none` on an
out-of-range lookup (the code's fatal lookup failure), return
`some false` at the first Air neighbour, `some true` if none is Air. -/
def cullLoop (spec : Spec) (chunk : Chunk) (pos : CellPos) :
    List (Int × Int × Int) → Option Bool
  | [] => some true
  | o :: rest =>
    if o.1 = 0 ∧ o.2.1 = 0 ∧ o.2.2 = 0 then
      cullLoop spec chunk pos rest
    else
      match chunkCell spec chunk (offsetPos pos o) with
      | none => none
      | some c =>
        if c.material = Material.Air then some false
        else cullLoop spec chunk pos rest

/-- `Geometry::cull_cell` from `geometry.rs` lines 211-275: cells on the
chunk's edge are never culled (returning before any cell lookup); an
interior cell is culled exactly when no neighbouring cell is Air. -/
def cull_cell (spec : Spec) (chunk : Chunk) (pos : CellPos) : Option Bool :=
  if pos.x ≤ chunk.origin.x ∨ pos.y ≤ chunk.origin.y ∨ pos.z ≤ chunk.origin.z ∨
     chunk.origin.x + (spec.chunk_resolution.1 : Int) ≤ pos.x ∨
     chunk.origin.y + (spec.chunk_resolution.2.1 : Int) ≤ pos.y ∨
     chunk.origin.z + (spec.chunk_resolution.2.2 : Int) - 1 ≤ pos.z
  then some false
  else cullLoop spec chunk pos neighborOffsets3

/-- The nine cell-shape templates of `globe/cell_shape.rs`, named as in the
selection chain of `make_chunk_geometry` (`geometry.rs` lines 128-146). -/
inductive CellShape where
  | FULL_HEX : CellShape
  | NORTH_PORTION : CellShape
  | SOUTH_PORTION : CellShape
  | WEST_PORTION : CellShape
  | EAST_PORTION : CellShape
  | NORTH_WEST_PORTION : CellShape
  | NORTH_EAST_PORTION : CellShape
  | SOUTH_WEST_PORTION : CellShape
  | SOUTH_EAST_PORTION : CellShape
deriving DecidableEq

/-- Outline of a template, as an ordered list of direction offsets.
Modelled from the spec: `globe/cell_shape.rs` is not under `src/`; the spec
fixes only that FULL_HEX carries the full hexagon outline (6 offsets) and
the 8 partial shapes carry shorter outlines (corners shortest). Every
claim depends only on the list and its length, never on the offset
values. -/
def top_outline_dir_offsets : CellShape → List Int
  | CellShape.FULL_HEX => [0, 1, 2, 3, 4, 5]
  | CellShape.NORTH_PORTION => [0, 1, 2, 3]
  | CellShape.SOUTH_PORTION => [3, 4, 5, 0]
  | CellShape.WEST_PORTION => [2, 3, 4, 5]
  | CellShape.EAST_PORTION => [5, 0, 1, 2]
  | CellShape.NORTH_WEST_PORTION => [0, 1, 2, 3, 4]
  | CellShape.NORTH_EAST_PORTION => [5, 0, 1, 2, 3]
  | CellShape.SOUTH_WEST_PORTION => [2, 3, 4, 5, 0]
  | CellShape.SOUTH_EAST_PORTION => [3, 4, 5, 0, 1]

/-- The template-selection chain of `make_chunk_geometry` (`geometry.rs`
lines 128-146), verbatim: most specific (corner) cases first, in the
order both-min, both-max, the two mixed corners, the four single edges,
full hex as default. Note the min-side comparisons are against the
literal 0, while the max-side comparisons are against the origin-relative
`end_x`/`end_y`. -/
def cellShapeFor (end_x end_y : Int) (cell_x cell_y : Int) : CellShape :=
  if cell_x = 0 ∧ cell_y = 0 then CellShape.NORTH_PORTION
  else if cell_x = end_x ∧ cell_y = end_y then CellShape.SOUTH_PORTION
  else if cell_x = end_x ∧ cell_y = 0 then CellShape.WEST_PORTION
  else if cell_x = 0 ∧ cell_y = end_y then CellShape.EAST_PORTION
  else if cell_y = 0 then CellShape.NORTH_WEST_PORTION
  else if cell_x = 0 then CellShape.NORTH_EAST_PORTION
  else if cell_x = end_x then CellShape.SOUTH_WEST_PORTION
  else if cell_y = end_y then CellShape.SOUTH_EAST_PORTION
  else CellShape.FULL_HEX

/-- Index triple for one render triangle (`na::Point3<usize>`). -/
def Tri : Type := Nat × Nat × Nat

instance : DecidableEq Tri := instDecidableEqProd

/-- Triangle fan over the top face (`geometry.rs` lines 161-167): one
triple per `i` in `1 .. outline_len - 1`, each anchored at the first top
vertex `v0`. (`Nat` subtraction makes this total; the outlines all have
at least 3 offsets, matching the Rust `usize` arithmetic.) -/
def top_fan_indices (v0 n : Nat) : List Tri :=
  (List.range (n - 2)).map fun i => (v0, v0 + i + 1, v0 + i + 2)

/-- Side-wall triangles (`geometry.rs` lines 197-205): for each
consecutive pair `ab`, `cd = (ab+1) % n` of outline positions, the two
triangles `(a, b, d)` and `(d, b, c)` between the side-top ring starting
at `v0 + n` and the side-bottom ring starting at `v0 + 2*n`. -/
def side_indices (v0 n : Nat) : List Tri :=
  (List.range n).flatMap fun ab =>
    [(v0 + n + ab, v0 + 2 * n + ab, v0 + n + (ab + 1) % n),
     (v0 + n + (ab + 1) % n, v0 + 2 * n + ab, v0 + 2 * n + (ab + 1) % n)]

/-- All index triples emitted for one cell whose first top vertex lands at
buffer offset `v0` and whose outline has `n` offsets: the top fan followed
by the side walls, in emission order. -/
def cellIndices (v0 n : Nat) : List Tri :=
  top_fan_indices v0 n ++ side_indices v0 n

/-- All vertices emitted for one cell (`geometry.rs` lines 148-194), in
emission order: the top-face ring, the same ring again for the side tops,
then the bottom ring for the side bottoms. -/
def cellVertices (spec : Spec) (pos : CellPos) (shape : CellShape) : List Pt3 :=
  (top_outline_dir_offsets shape).map (fun o => spec.cell_top_vertex pos o) ++
  (top_outline_dir_offsets shape).map (fun o => spec.cell_top_vertex pos o) ++
  (top_outline_dir_offsets shape).map (fun o => spec.cell_bottom_vertex pos o)

/-- One iteration of `make_chunk_geometry`'s cell loop (`geometry.rs`
lines 100-206) for the cell at `pos`, with `vlen` vertices already in the
buffer: cull check first, then the cell lookup (fatal `none` when out of
range), then the air skip, then shape selection and emission. Returns the
vertex and index triples this cell appends. -/
def cellGeometry (spec : Spec) (chunk : Chunk) (vlen : Nat) (pos : CellPos) :
    Option (List Pt3 × List Tri) :=
  match cull_cell spec chunk pos with
  | none => none
  | some true => some ([], [])
  | some false =>
    match chunkCell spec chunk pos with
    | none => none
    | some cell =>
      if cell.material = Material.Air then some ([], [])
      else
        let end_x := chunk.origin.x + (spec.chunk_resolution.1 : Int)
        let end_y := chunk.origin.y + (spec.chunk_resolution.2.1 : Int)
        let shape := cellShapeFor end_x end_y pos.x pos.y
        some (cellVertices spec pos shape,
              cellIndices vlen (top_outline_dir_offsets shape).length)

/-- The cell addresses visited by `make_chunk_geometry`'s triple loop
(`geometry.rs` lines 90-100), in iteration order: `z` from `origin.z` to
`end_z = origin.z + chunk_resolution.z - 1`, then `y` and `x` through the
shared far edge (`origin + chunk_resolution` inclusive). -/
def cellRange (spec : Spec) (chunk : Chunk) : List CellPos :=
  (List.range spec.chunk_resolution.2.2).flatMap fun iz =>
    (List.range (spec.chunk_resolution.2.1 + 1)).flatMap fun iy =>
      (List.range (spec.chunk_resolution.1 + 1)).map fun ix =>
        { root := chunk.origin.root,
          x := chunk.origin.x + (ix : Int),
          y := chunk.origin.y + (iy : Int),
          z := chunk.origin.z + (iz : Int) }

/-- One step of `make_chunk_geometry`'s fold: run the per-cell emission
with the current vertex count and append its output to both buffers. -/
def mcgStep (spec : Spec) (chunk : Chunk) (acc : List Pt3 × List Tri)
    (pos : CellPos) : Option (List Pt3 × List Tri) :=
  (cellGeometry spec chunk acc.1.length pos).map
    fun vi => (acc.1 ++ vi.1, acc.2 ++ vi.2)

/-- `Geometry::make_chunk_geometry` (`geometry.rs` lines 84-209): fold the
per-cell emission over the chunk's cell range, appending to the incoming
vertex and index buffers; `none` models the fatal out-of-range lookup. -/
def make_chunk_geometry (spec : Spec) (chunk : Chunk)
    (vertex_data : List Pt3) (index_data : List Tri) :
    Option (List Pt3 × List Tri) :=
  (cellRange spec chunk).foldlM (mcgStep spec chunk)
    (vertex_data, index_data)

/-- Rotational sense of a turn (`TurnDir` in the `movement` module). -/
inductive TurnDir where
  | Left : TurnDir
  | Right : TurnDir
deriving DecidableEq

/-- Pentagon predicate. Modelled from the spec: `movement.rs` is not under
`src/`. Per spec section 4.1 a cell is a pentagon iff its in-root
coordinates sit at one of the two poles of the root face at the given
resolution: `x = 0 and y = 0`, or the symmetric opposite corner. -/
def is_pentagon (pos : CellPos) (root_resolution : Int × Int) : Bool :=
  (pos.x == 0 && pos.y == 0) ||
  (pos.x == root_resolution.1 && pos.y == root_resolution.2)

/-- `turn_by_one_hex_edge`. Modelled from the spec: `movement.rs` is not
under `src/`. Per spec section 4.2 a turn rotates the entity in place by
one edge-angle in the requested sense, advancing its facing direction
cyclically through the cell's direction slots (6 of them, or only 5 at a
pentagon cell) so that repeated turns trace a closed loop around the
cell; the cell itself is unchanged (the code may rebase the address to an
equivalent representation in another root frame, modelled here as the
identity). The state is the address paired with the index of the facing
slot. -/
def turn_by_one_hex_edge (root_resolution : Int × Int) (turn_dir : TurnDir)
    (s : CellPos × Nat) : CellPos × Nat :=
  let n : Nat := if is_pentagon s.1 root_resolution then 5 else 6
  match turn_dir with
  | TurnDir.Left => (s.1, (s.2 + 1) % n)
  | TurnDir.Right => (s.1, (s.2 + (n - 1)) % n)

/-- The edge-angle used by `CellDweller::pan` (`cell_dweller.rs` lines
83-88), in units of pi radians: `2*pi/5` at a pentagon, `2*pi/6`
otherwise. -/
def angleBetweenEdges (root_resolution : Int × Int) (pos : CellPos) : Rat :=
  if is_pentagon pos root_resolution then 2 / 5 else 2 / 6

/-- Trimmed `CellDweller` state for the `pan` claims: the cell address and
the yaw accumulator (in units of pi radians). `pan` touches nothing else
that the claims mention; the facing-direction update performed by each
`turn` is independent of the yaw arithmetic and is left out. -/
structure PanState where
  pos : CellPos
  yaw : Rat
deriving DecidableEq

/-- The `while` loop of `CellDweller::pan` (`cell_dweller.rs` lines
92-103), fuel-indexed because the source loop need not terminate: while
`|yaw| > half`, perform one turn (whose effect on the stored position is
the `turnPos` argument — the real update lives in the absent
`movement.rs`) and subtract (`Left`) or add (`Right`) one full edge-angle.
`none` means the fuel ran out with the loop still running; the loop
terminates on an input iff some fuel returns `some`. The edge-angle and
threshold are the ones computed once before the loop, exactly as in the
source. -/
def panLoop (turnPos : CellPos → CellPos) (left : Bool)
    (angle half : Rat) : Nat → PanState → Option PanState
  | 0, s => if |s.yaw| > half then none else some s
  | fuel + 1, s =>
    if |s.yaw| > half then
      panLoop turnPos left angle half fuel
        { pos := turnPos s.pos,
          yaw := if left then s.yaw - angle else s.yaw + angle }
    else some s

/-- `CellDweller::pan` (`cell_dweller.rs` lines 77-106): early return on a
zero input; the turn direction from the sign of the input; the edge-angle
and half-angle threshold computed once, from the pentagon predicate at
the entry position; the input added to the yaw accumulator; then the
discrete-turn loop. -/
def pan (root_resolution : Int × Int) (turnPos : CellPos → CellPos)
    (fuel : Nat) (s : PanState) (panInput : Rat) : Option PanState :=
  if panInput = 0 then some s
  else if 0 < panInput then
    panLoop turnPos true (angleBetweenEdges root_resolution s.pos)
      (angleBetweenEdges root_resolution s.pos / 2) fuel
      { s with yaw := s.yaw + panInput }
  else
    panLoop turnPos false (angleBetweenEdges root_resolution s.pos)
      (angleBetweenEdges root_resolution s.pos / 2) fuel
      { s with yaw := s.yaw + panInput }

/-- The loop of `pan` as the spec's section 4.2 words describe it: the
edge-angle (and hence the half-edge threshold) is recomputed via the
pentagon predicate from the current position after every discrete turn
rather than cached. This definition follows the spec's words, to be
compared with `pan` (which follows the source). -/
def panLoopRecompute (root_resolution : Int × Int)
    (turnPos : CellPos → CellPos) (left : Bool) :
    Nat → PanState → Option PanState
  | 0, s =>
    if |s.yaw| > angleBetweenEdges root_resolution s.pos / 2 then none
    else some s
  | fuel + 1, s =>
    if |s.yaw| > angleBetweenEdges root_resolution s.pos / 2 then
      panLoopRecompute root_resolution turnPos left fuel
        { pos := turnPos s.pos,
          yaw := if left then s.yaw - angleBetweenEdges root_resolution s.pos
                 else s.yaw + angleBetweenEdges root_resolution s.pos }
    else some s

/-- `pan` with the per-turn threshold recomputation the spec describes;
identical to `pan` in every other respect. Follows the spec's words, for
comparison with the source's `pan`. -/
def panRecompute (root_resolution : Int × Int) (turnPos : CellPos → CellPos)
    (fuel : Nat) (s : PanState) (panInput : Rat) : Option PanState :=
  if panInput = 0 then some s
  else if 0 < panInput then
    panLoopRecompute root_resolution turnPos true fuel
      { s with yaw := s.yaw + panInput }
  else
    panLoopRecompute root_resolution turnPos false fuel
      { s with yaw := s.yaw + panInput }

/-- A one-column view of a globe, for `find_lowest_cell_containing`.
Modelled from the spec: `globe/globe.rs` is not under `src/`. `layers` is
the number of loaded radial layers of the column and `material` its
content per address. -/
structure Globe where
  layers : Nat
  material : CellPos → Material

/-- `Globe::find_lowest_cell_containing(start_pos, material)`. Modelled
from the spec: `globe/globe.rs` is not under `src/`. Per spec sections
4.3 and 8 it walks the radial column of `start_pos` along `z`, scanning
from the globe's core outward (`z = 0` upward), and returns the first —
i.e. the lowest — cell whose material matches, failing with NotFound
(`none`) when the loaded column has no match. This matches the only
caller in `src/app.rs` lines 133-135, which starts the search at
`CellPos::default()` (`z = 0`). -/
def find_lowest_cell_containing (globe : Globe) (start : CellPos)
    (m : Material) : Option CellPos :=
  ((List.range globe.layers).map
      (fun z => { start with z := (z : Int) })).find?
    (fun p => globe.material p = m)

/-! ### Concrete instances used by witnesses and counterexamples -/

/-- A concrete globe spec with 2x2x2 chunks; the vertex mapping functions
are constant because no claim inspects vertex positions. -/
def specW : Spec :=
  { root_resolution := (32, 64)
    chunk_resolution := (2, 2, 2)
    cell_top_vertex := fun _ _ => ((0 : Rat), (0 : Rat), (0 : Rat))
    cell_bottom_vertex := fun _ _ => ((0 : Rat), (0 : Rat), (0 : Rat)) }

/-- An all-Solid chunk anchored at the root origin. -/
def chunkSolid : Chunk :=
  { origin := ⟨0, 0, 0, 0⟩
    cells := fun _ => { material := Material.Solid, shade := 0 } }

/-- An all-Solid chunk anchored away from the root origin, at
`x = 2, y = 2`. -/
def chunkC1 : Chunk :=
  { origin := ⟨0, 2, 2, 0⟩
    cells := fun _ => { material := Material.Solid, shade := 0 } }

/-! ### C3: outer-boundary cells are never culled -/

/-- C3: for every chunk and every cell position with x, y or z equal to
the chunk's min or max stored coordinate (min `origin`, max
`origin + chunk_resolution` in x/y and `origin + chunk_resolution - 1`
in z), `cull_cell` returns `false`, regardless of any neighbour
materials. -/
theorem c3_boundary_never_culled (spec : Spec) (chunk : Chunk) (pos : CellPos)
    (h : pos.x = chunk.origin.x ∨
         pos.x = chunk.origin.x + (spec.chunk_resolution.1 : Int) ∨
         pos.y = chunk.origin.y ∨
         pos.y = chunk.origin.y + (spec.chunk_resolution.2.1 : Int) ∨
         pos.z = chunk.origin.z ∨
         pos.z = chunk.origin.z + (spec.chunk_resolution.2.2 : Int) - 1) :
    cull_cell spec chunk pos = some false := by
  unfold cull_cell
  rw [if_pos]
  omega

/-- Witness for C3: the all-Solid chunk's min-x boundary cell
`(x, y, z) = (0, 1, 1)` is not culled even though every stored neighbour
is Solid. -/
theorem c3_boundary_never_culled_witness :
    cull_cell specW chunkSolid ⟨0, 0, 1, 1⟩ = some false :=
  c3_boundary_never_culled specW chunkSolid ⟨0, 0, 1, 1⟩ (Or.inl rfl)

/-! ### C10: cull_cell never looks up outside the stored footprint -/

/-- Any offset in the scan table moves each coordinate by at most one. -/
theorem neighborOffsets3_small :
    ∀ o ∈ neighborOffsets3,
      -1 ≤ o.1 ∧ o.1 ≤ 1 ∧ -1 ≤ o.2.1 ∧ o.2.1 ≤ 1 ∧ -1 ≤ o.2.2 ∧ o.2.2 ≤ 1 := by
  decide

/-- If every non-self offset in the list leads to an in-range lookup, the
neighbour scan cannot hit the fatal out-of-range case. -/
theorem cullLoop_isSome (spec : Spec) (chunk : Chunk) (pos : CellPos)
    (l : List (Int × Int × Int))
    (h : ∀ o ∈ l, ¬(o.1 = 0 ∧ o.2.1 = 0 ∧ o.2.2 = 0) →
        (chunkCell spec chunk (offsetPos pos o)).isSome) :
    (cullLoop spec chunk pos l).isSome := by
  induction l with
  | nil => simp [cullLoop]
  | cons o rest ih =>
    rw [cullLoop]
    by_cases h0 : o.1 = 0 ∧ o.2.1 = 0 ∧ o.2.2 = 0
    · rw [if_pos h0]
      exact ih fun o' ho' => h o' (List.mem_cons_of_mem o ho')
    · rw [if_neg h0]
      have hs := h o (List.mem_cons_self o rest) h0
      cases heq : chunkCell spec chunk (offsetPos pos o) with
      | none => rw [heq] at hs; exact absurd hs (by simp)
      | some c =>
        by_cases hair : c.material = Material.Air
        · simp [hair]
        · simp only [hair, if_neg, if_false]
          exact ih fun o' ho' => h o' (List.mem_cons_of_mem o ho')

/-- C10: `cull_cell` never performs an out-of-range cell lookup. A cell
on the chunk's edge is answered (`false`) before any lookup, and for a
strictly interior cell every queried neighbour (offsets of at most 1 in
each coordinate) lies inside the stored footprint, so the fatal lookup
failure is unreachable from `cull_cell`. -/
theorem c10_cull_cell_never_fails (spec : Spec) (chunk : Chunk) (pos : CellPos)
    (hroot : pos.root = chunk.origin.root) :
    (cull_cell spec chunk pos).isSome := by
  unfold cull_cell
  by_cases hedge : pos.x ≤ chunk.origin.x ∨ pos.y ≤ chunk.origin.y ∨
      pos.z ≤ chunk.origin.z ∨
      chunk.origin.x + (spec.chunk_resolution.1 : Int) ≤ pos.x ∨
      chunk.origin.y + (spec.chunk_resolution.2.1 : Int) ≤ pos.y ∨
      chunk.origin.z + (spec.chunk_resolution.2.2 : Int) - 1 ≤ pos.z
  · rw [if_pos hedge]; simp
  · rw [if_neg hedge]
    refine cullLoop_isSome spec chunk pos neighborOffsets3 fun o ho _ => ?_
    have hb := neighborOffsets3_small o ho
    unfold chunkCell offsetPos
    rw [if_pos]
    · simp
    · refine ⟨hroot, ?_, ?_, ?_, ?_, ?_, ?_⟩ <;> simp only [] <;> omega

/-- Witness for C10: `cull_cell` answers (here for the interior cell
`(1, 1, 1)` of the all-Solid chunk) without hitting a lookup failure. -/
theorem c10_cull_cell_never_fails_witness :
    (cull_cell specW chunkSolid ⟨0, 1, 1, 1⟩).isSome :=
  c10_cull_cell_never_fails specW chunkSolid ⟨0, 1, 1, 1⟩ rfl

/-! ### C5: find_lowest_cell_containing scans the column from the core -/

/-- The `[Solid, Solid, Air, Air]` column (deepest to shallowest) of the
spec's scenario, loaded four layers deep. -/
def globeColumn : Globe :=
  { layers := 4
    material := fun p => if 2 ≤ p.z then Material.Air else Material.Solid }

/-- C5: on a column whose cells are Solid, Solid, Air, Air from deepest
to shallowest, `find_lowest_cell_containing` started from the shallowest
cell and searching for Air returns the deeper of the two Air cells — the
first Air cell scanning from the core outward, the one touching Solid
beneath it. -/
theorem c5_find_lowest_cell_containing_scenario :
    globeColumn.material ⟨0, 0, 0, 0⟩ = Material.Solid ∧
    globeColumn.material ⟨0, 0, 0, 1⟩ = Material.Solid ∧
    globeColumn.material ⟨0, 0, 0, 2⟩ = Material.Air ∧
    globeColumn.material ⟨0, 0, 0, 3⟩ = Material.Air ∧
    find_lowest_cell_containing globeColumn ⟨0, 0, 0, 3⟩ Material.Air =
      some ⟨0, 0, 0, 2⟩ := by
  decide

/-! ### C1: boundary-shape selection compares the min side against 0 -/

/-- C1 (code bug evaluation): in the chunk anchored at `origin.x = 2`,
the non-air, non-culled cell at `x = 2, y = 3` lies on the chunk's min-x
stored boundary, yet the template-selection chain classifies it as
`FULL_HEX` rather than one of the three min-x boundary shapes
(`NORTH_PORTION`, `EAST_PORTION`, `NORTH_EAST_PORTION`), because the
min-side comparisons test `cell_x == 0` instead of
`cell_x == origin.x`. -/
theorem c1_min_x_boundary_misclassified :
    chunkC1.origin.x = 2 ∧
    cull_cell specW chunkC1 ⟨0, 2, 3, 0⟩ = some false ∧
    chunkCell specW chunkC1 ⟨0, 2, 3, 0⟩ =
      some { material := Material.Solid, shade := 0 } ∧
    cellShapeFor (chunkC1.origin.x + (specW.chunk_resolution.1 : Int))
        (chunkC1.origin.y + (specW.chunk_resolution.2.1 : Int)) 2 3 =
      CellShape.FULL_HEX ∧
    cellGeometry specW chunkC1 0 ⟨0, 2, 3, 0⟩ =
      some (cellVertices specW ⟨0, 2, 3, 0⟩ CellShape.FULL_HEX,
            cellIndices 0 6) := by
  decide

/-! ### C6: turn closure, six turns at a hexagon, exactly five at a pentagon -/

/-- C6: from any valid facing slot, six turns in the same rotational
sense close the loop at a non-pentagon cell, returning the entity to its
original `(pos, dir)`; at a pentagon cell the closure is reached after
exactly five turns — five turns are the identity and one to four turns
never are. -/
theorem c6_turn_closure (res : Int × Int) (pos : CellPos) (d : Nat)
    (td : TurnDir) :
    (is_pentagon pos res = false → d < 6 →
      (turn_by_one_hex_edge res td)^[6] (pos, d) = (pos, d)) ∧
    (is_pentagon pos res = true → d < 5 →
      (turn_by_one_hex_edge res td)^[5] (pos, d) = (pos, d) ∧
      ∀ k, 0 < k → k < 5 →
        (turn_by_one_hex_edge res td)^[k] (pos, d) ≠ (pos, d)) := by
  constructor
  · intro hpent hd
    cases td <;>
      simp [Function.iterate_succ_apply', turn_by_one_hex_edge, hpent,
        Prod.ext_iff] <;>
      omega
  · intro hpent hd
    constructor
    · cases td <;>
        simp [Function.iterate_succ_apply', turn_by_one_hex_edge, hpent,
          Prod.ext_iff] <;>
        omega
    · intro k hk0 hk5
      interval_cases k <;>
        cases td <;>
        simp [Function.iterate_succ_apply', turn_by_one_hex_edge, hpent,
          Prod.ext_iff] <;>
        omega

/-- Witness for C6: at the resolution `(32, 64)`, six left turns close
the loop at the hexagon cell `(1, 0)` and five at the pentagon cell
`(0, 0)`. -/
theorem c6_turn_closure_witness :
    (turn_by_one_hex_edge (32, 64) TurnDir.Left)^[6] (⟨0, 1, 0, 0⟩, 0) =
      (⟨0, 1, 0, 0⟩, 0) ∧
    (turn_by_one_hex_edge (32, 64) TurnDir.Left)^[5] (⟨0, 0, 0, 0⟩, 0) =
      (⟨0, 0, 0, 0⟩, 0) :=
  ⟨(c6_turn_closure (32, 64) ⟨0, 1, 0, 0⟩ 0 TurnDir.Left).1 (by decide)
      (by decide),
   ((c6_turn_closure (32, 64) ⟨0, 0, 0, 0⟩ 0 TurnDir.Left).2 (by decide)
      (by decide)).1⟩

/-! ### C4: interior culling is exactly the no-Air-neighbour test -/

/-- Every outline is non-empty, so an emitting cell appends vertices. -/
theorem cellVertices_ne_nil (spec : Spec) (pos : CellPos) (shape : CellShape) :
    cellVertices spec pos shape ≠ [] := by
  cases shape <;> simp [cellVertices, top_outline_dir_offsets]

/-- If every non-self neighbour lookup succeeds and none of them is Air,
the scan reports the cell cullable. -/
theorem cullLoop_true (spec : Spec) (chunk : Chunk) (pos : CellPos)
    (l : List (Int × Int × Int))
    (hsome : ∀ o ∈ l, ¬(o.1 = 0 ∧ o.2.1 = 0 ∧ o.2.2 = 0) →
        (chunkCell spec chunk (offsetPos pos o)).isSome)
    (hnair : ∀ o ∈ l, ¬(o.1 = 0 ∧ o.2.1 = 0 ∧ o.2.2 = 0) →
        (chunkCell spec chunk (offsetPos pos o)).map Cell.material ≠
          some Material.Air) :
    cullLoop spec chunk pos l = some true := by
  induction l with
  | nil => rfl
  | cons o rest ih =>
    rw [cullLoop]
    by_cases h0 : o.1 = 0 ∧ o.2.1 = 0 ∧ o.2.2 = 0
    · rw [if_pos h0]
      exact ih (fun o' ho' => hsome o' (List.mem_cons_of_mem o ho'))
        (fun o' ho' => hnair o' (List.mem_cons_of_mem o ho'))
    · rw [if_neg h0]
      cases heq : chunkCell spec chunk (offsetPos pos o) with
      | none =>
        have := hsome o (List.mem_cons_self o rest) h0
        rw [heq] at this
        exact absurd this (by simp)
      | some c =>
        have hthis := hnair o (List.mem_cons_self o rest) h0
        rw [heq] at hthis
        have hcm : c.material ≠ Material.Air := fun h => hthis (by rw [← h]; rfl)
        show (if c.material = Material.Air then some false
          else cullLoop spec chunk pos rest) = some true
        rw [if_neg hcm]
        exact ih (fun o' ho' => hsome o' (List.mem_cons_of_mem o ho'))
          (fun o' ho' => hnair o' (List.mem_cons_of_mem o ho'))

/-- If every non-self neighbour lookup succeeds and some neighbour is
Air, the scan reports the cell visible. -/
theorem cullLoop_false (spec : Spec) (chunk : Chunk) (pos : CellPos)
    (l : List (Int × Int × Int))
    (hsome : ∀ o ∈ l, ¬(o.1 = 0 ∧ o.2.1 = 0 ∧ o.2.2 = 0) →
        (chunkCell spec chunk (offsetPos pos o)).isSome)
    (hex : ∃ o ∈ l, ¬(o.1 = 0 ∧ o.2.1 = 0 ∧ o.2.2 = 0) ∧
        (chunkCell spec chunk (offsetPos pos o)).map Cell.material =
          some Material.Air) :
    cullLoop spec chunk pos l = some false := by
  induction l with
  | nil => obtain ⟨o, ho, _⟩ := hex; exact absurd ho (by simp)
  | cons o rest ih =>
    rw [cullLoop]
    by_cases h0 : o.1 = 0 ∧ o.2.1 = 0 ∧ o.2.2 = 0
    · rw [if_pos h0]
      refine ih (fun o' ho' => hsome o' (List.mem_cons_of_mem o ho')) ?_
      obtain ⟨o', ho', hn', hair'⟩ := hex
      rcases List.mem_cons.mp ho' with h | h
      · exact absurd (h ▸ h0) hn'
      · exact ⟨o', h, hn', hair'⟩
    · rw [if_neg h0]
      cases heq : chunkCell spec chunk (offsetPos pos o) with
      | none =>
        have := hsome o (List.mem_cons_self o rest) h0
        rw [heq] at this
        exact absurd this (by simp)
      | some c =>
        show (if c.material = Material.Air then some false
          else cullLoop spec chunk pos rest) = some false
        by_cases hair : c.material = Material.Air
        · rw [if_pos hair]
        · rw [if_neg hair]
          refine ih (fun o' ho' => hsome o' (List.mem_cons_of_mem o ho')) ?_
          obtain ⟨o', ho', hn', hair'⟩ := hex
          rcases List.mem_cons.mp ho' with h | h
          · rw [h, heq] at hair'
            have : c.material = Material.Air := Option.some.inj hair'
            exact absurd this hair
          · exact ⟨o', h, hn', hair'⟩

/-- For a strictly interior cell, every offset of the scan table lands
inside the chunk's stored footprint, so its lookup returns the stored
cell. -/
theorem interior_neighbor_lookup (spec : Spec) (chunk : Chunk) (pos : CellPos)
    (hroot : pos.root = chunk.origin.root)
    (hx1 : chunk.origin.x < pos.x)
    (hx2 : pos.x < chunk.origin.x + (spec.chunk_resolution.1 : Int))
    (hy1 : chunk.origin.y < pos.y)
    (hy2 : pos.y < chunk.origin.y + (spec.chunk_resolution.2.1 : Int))
    (hz1 : chunk.origin.z < pos.z)
    (hz2 : pos.z < chunk.origin.z + (spec.chunk_resolution.2.2 : Int) - 1) :
    ∀ o ∈ neighborOffsets3,
      chunkCell spec chunk (offsetPos pos o) =
        some (chunk.cells (offsetPos pos o)) := by
  intro o ho
  have hb := neighborOffsets3_small o ho
  unfold chunkCell offsetPos
  rw [if_pos]
  refine ⟨hroot, ?_, ?_, ?_, ?_, ?_, ?_⟩ <;> simp only [] <;> omega

/-- Unfolding of the per-cell emission for a visible non-air cell. -/
theorem cellGeometry_emit (spec : Spec) (chunk : Chunk) (vlen : Nat)
    (pos : CellPos) (c : Cell)
    (hcull : cull_cell spec chunk pos = some false)
    (hc : chunkCell spec chunk pos = some c)
    (hm : c.material ≠ Material.Air) :
    cellGeometry spec chunk vlen pos =
      some (cellVertices spec pos
          (cellShapeFor (chunk.origin.x + (spec.chunk_resolution.1 : Int))
            (chunk.origin.y + (spec.chunk_resolution.2.1 : Int)) pos.x pos.y),
        cellIndices vlen
          (top_outline_dir_offsets
            (cellShapeFor (chunk.origin.x + (spec.chunk_resolution.1 : Int))
              (chunk.origin.y + (spec.chunk_resolution.2.1 : Int)) pos.x
              pos.y)).length) := by
  unfold cellGeometry
  rw [hcull, hc]
  exact if_neg hm

/-- Unfolding of the per-cell emission for a culled cell. -/
theorem cellGeometry_culled (spec : Spec) (chunk : Chunk) (vlen : Nat)
    (pos : CellPos) (hcull : cull_cell spec chunk pos = some true) :
    cellGeometry spec chunk vlen pos = some ([], []) := by
  unfold cellGeometry
  rw [hcull]

/-- The per-cell emission propagates a culling-scan failure. -/
theorem cellGeometry_fail_cull (spec : Spec) (chunk : Chunk) (vlen : Nat)
    (pos : CellPos) (h : cull_cell spec chunk pos = none) :
    cellGeometry spec chunk vlen pos = none := by
  unfold cellGeometry
  rw [h]

/-- The per-cell emission propagates a failed cell lookup. -/
theorem cellGeometry_fail_cell (spec : Spec) (chunk : Chunk) (vlen : Nat)
    (pos : CellPos) (hcull : cull_cell spec chunk pos = some false)
    (hc : chunkCell spec chunk pos = none) :
    cellGeometry spec chunk vlen pos = none := by
  unfold cellGeometry
  rw [hcull, hc]

/-- Unfolding of the per-cell emission for a visible Air cell. -/
theorem cellGeometry_air (spec : Spec) (chunk : Chunk) (vlen : Nat)
    (pos : CellPos) (c : Cell)
    (hcull : cull_cell spec chunk pos = some false)
    (hc : chunkCell spec chunk pos = some c)
    (hm : c.material = Material.Air) :
    cellGeometry spec chunk vlen pos = some ([], []) := by
  unfold cellGeometry
  rw [hcull, hc]
  exact if_pos hm

/-- C4: a strictly interior cell is culled exactly when none of the
queried neighbours (the lateral `NEIGHBOR_OFFSETS` at z offsets -1, 0, +1,
excluding the cell itself) is Air: with an Air neighbour, `cull_cell`
returns `false` and a Solid cell there emits a non-empty vertex list;
with no Air neighbour, `cull_cell` returns `true` and the cell emits
nothing. -/
theorem c4_interior_culling (spec : Spec) (chunk : Chunk) (pos : CellPos)
    (hroot : pos.root = chunk.origin.root)
    (hx1 : chunk.origin.x < pos.x)
    (hx2 : pos.x < chunk.origin.x + (spec.chunk_resolution.1 : Int))
    (hy1 : chunk.origin.y < pos.y)
    (hy2 : pos.y < chunk.origin.y + (spec.chunk_resolution.2.1 : Int))
    (hz1 : chunk.origin.z < pos.z)
    (hz2 : pos.z < chunk.origin.z + (spec.chunk_resolution.2.2 : Int) - 1) :
    ((∃ o ∈ neighborOffsets3, ¬(o.1 = 0 ∧ o.2.1 = 0 ∧ o.2.2 = 0) ∧
        (chunkCell spec chunk (offsetPos pos o)).map Cell.material =
          some Material.Air) →
      cull_cell spec chunk pos = some false ∧
      ∀ c, chunkCell spec chunk pos = some c →
        c.material = Material.Solid →
        ∀ vlen, ∃ vs ts,
          cellGeometry spec chunk vlen pos = some (vs, ts) ∧ vs ≠ []) ∧
    ((∀ o ∈ neighborOffsets3, ¬(o.1 = 0 ∧ o.2.1 = 0 ∧ o.2.2 = 0) →
        (chunkCell spec chunk (offsetPos pos o)).map Cell.material ≠
          some Material.Air) →
      cull_cell spec chunk pos = some true ∧
      ∀ vlen, cellGeometry spec chunk vlen pos = some ([], [])) := by
  have hin := interior_neighbor_lookup spec chunk pos hroot hx1 hx2 hy1 hy2
    hz1 hz2
  have hedge : ¬(pos.x ≤ chunk.origin.x ∨ pos.y ≤ chunk.origin.y ∨
      pos.z ≤ chunk.origin.z ∨
      chunk.origin.x + (spec.chunk_resolution.1 : Int) ≤ pos.x ∨
      chunk.origin.y + (spec.chunk_resolution.2.1 : Int) ≤ pos.y ∨
      chunk.origin.z + (spec.chunk_resolution.2.2 : Int) - 1 ≤ pos.z) := by
    omega
  have hsome : ∀ o ∈ neighborOffsets3,
      ¬(o.1 = 0 ∧ o.2.1 = 0 ∧ o.2.2 = 0) →
      (chunkCell spec chunk (offsetPos pos o)).isSome := by
    intro o ho _
    rw [hin o ho]
    simp
  constructor
  · rintro ⟨o, ho, hn, hair⟩
    have hcull : cull_cell spec chunk pos = some false := by
      unfold cull_cell
      rw [if_neg hedge]
      exact cullLoop_false spec chunk pos neighborOffsets3 hsome
        ⟨o, ho, hn, hair⟩
    refine ⟨hcull, ?_⟩
    intro c hc hm vlen
    exact ⟨_, _,
      cellGeometry_emit spec chunk vlen pos c hcull hc
        (by rw [hm]; exact fun h => by cases h),
      cellVertices_ne_nil _ _ _⟩
  · intro h2
    have hcull : cull_cell spec chunk pos = some true := by
      unfold cull_cell
      rw [if_neg hedge]
      exact cullLoop_true spec chunk pos neighborOffsets3 hsome h2
    exact ⟨hcull, fun vlen => cellGeometry_culled spec chunk vlen pos hcull⟩

/-- A spec with three radial layers per chunk, so that strictly interior
cells exist. -/
def specW3 : Spec :=
  { root_resolution := (32, 64)
    chunk_resolution := (2, 2, 3)
    cell_top_vertex := fun _ _ => ((0 : Rat), (0 : Rat), (0 : Rat))
    cell_bottom_vertex := fun _ _ => ((0 : Rat), (0 : Rat), (0 : Rat)) }

/-- A chunk that is Solid everywhere except one Air pocket directly above
the interior cell `(1, 1, 1)`. -/
def chunkAir : Chunk :=
  { origin := ⟨0, 0, 0, 0⟩
    cells := fun p =>
      if p = ⟨0, 1, 1, 2⟩ then { material := Material.Air, shade := 0 }
      else { material := Material.Solid, shade := 0 } }

/-- Witness for C4: the interior Solid cell below the Air pocket is not
culled and emits geometry. -/
theorem c4_interior_culling_witness :
    cull_cell specW3 chunkAir ⟨0, 1, 1, 1⟩ = some false ∧
    cellGeometry specW3 chunkAir 0 ⟨0, 1, 1, 1⟩ ≠ some ([], []) := by
  have h := (c4_interior_culling specW3 chunkAir ⟨0, 1, 1, 1⟩ rfl (by decide)
    (by decide) (by decide) (by decide) (by decide) (by decide)).1
    ⟨(0, 0, 1), by decide, by decide, by decide⟩
  obtain ⟨vs, ts, heq, hne⟩ :=
    h.2 { material := Material.Solid, shade := 0 } (by decide) rfl 0
  refine ⟨h.1, ?_⟩
  rw [heq]
  intro hcontra
  apply hne
  exact congrArg Prod.fst (Option.some.inj hcontra)

/-! ### C8: per-cell emission layout, fan and quad strip -/

/-- Every template outline has at least three offsets. -/
theorem outline_length_ge_three (shape : CellShape) :
    3 ≤ (top_outline_dir_offsets shape).length := by
  cases shape <;> decide

/-- The vertices of one cell: three rings of the outline's length. -/
theorem cellVertices_length (spec : Spec) (pos : CellPos) (shape : CellShape) :
    (cellVertices spec pos shape).length =
      3 * (top_outline_dir_offsets shape).length := by
  simp [cellVertices]
  ring

/-- The top fan carries one triangle per outline offset beyond the first
two. -/
theorem top_fan_indices_length (v0 n : Nat) :
    (top_fan_indices v0 n).length = n - 2 := by
  simp [top_fan_indices]

/-- Every fan triangle is anchored at the first emitted top vertex and
references only top-ring vertices. -/
theorem top_fan_indices_apex (v0 n : Nat) :
    ∀ t ∈ top_fan_indices v0 n,
      t.1 = v0 ∧ v0 < t.2.1 ∧ t.2.1 < v0 + n ∧ v0 < t.2.2 ∧
        t.2.2 < v0 + n := by
  intro t ht
  simp only [top_fan_indices, List.mem_map, List.mem_range] at ht
  obtain ⟨i, hi, rfl⟩ := ht
  refine ⟨rfl, ?_, ?_, ?_, ?_⟩ <;> simp only [] <;> omega

/-- A flatMap of two-element blocks over a range, re-expressed as a map
over the doubled range (even positions from the first component, odd from
the second). -/
theorem flatMap_pair_eq_map {α : Type} (f g : Nat → α) (n : Nat) :
    (List.range n).flatMap (fun i => [f i, g i]) =
      (List.range (2 * n)).map
        (fun j => if j % 2 = 0 then f (j / 2) else g (j / 2)) := by
  induction n with
  | zero => rfl
  | succ m ih =>
    rw [List.range_succ, List.flatMap_append, ih]
    rw [show 2 * (m + 1) = 2 * m + 1 + 1 by ring, List.range_succ,
      List.range_succ]
    simp only [List.map_append, List.flatMap_cons, List.flatMap_nil,
      List.map_cons, List.map_nil, List.append_assoc]
    congr 1
    simp only [List.cons_append, List.nil_append]
    congr 1
    · simp [Nat.mul_div_cancel_left]
    · congr 1
      have h1 : (2 * m + 1) % 2 = 1 := by omega
      have h2 : (2 * m + 1) / 2 = m := by omega
      simp [h1, h2]

/-- The side walls carry two triangles per outline offset. -/
theorem side_indices_length (v0 n : Nat) :
    (side_indices v0 n).length = 2 * n := by
  rw [side_indices, flatMap_pair_eq_map]
  simp

/-- The two side triangles for the consecutive (wrapping) outline pair
`(k, (k+1) % n)` sit at positions `2*k` and `2*k + 1` of the side list:
a quad between side-top ring (base `v0 + n`) and side-bottom ring (base
`v0 + 2*n`). -/
theorem side_indices_get (v0 n k : Nat) (hk : k < n) :
    (side_indices v0 n)[2 * k]? =
      some (v0 + n + k, v0 + 2 * n + k, v0 + n + (k + 1) % n) ∧
    (side_indices v0 n)[2 * k + 1]? =
      some (v0 + n + (k + 1) % n, v0 + 2 * n + k,
        v0 + 2 * n + (k + 1) % n) := by
  rw [side_indices, flatMap_pair_eq_map]
  have h2k : 2 * k < 2 * n := by omega
  have h2k1 : 2 * k + 1 < 2 * n := by omega
  constructor
  · rw [List.getElem?_map, List.getElem?_range h2k]
    have : (2 * k) % 2 = 0 := by omega
    have hdiv : (2 * k) / 2 = k := by omega
    simp [this, hdiv]
  · rw [List.getElem?_map, List.getElem?_range h2k1]
    have : (2 * k + 1) % 2 = 1 := by omega
    have hdiv : (2 * k + 1) / 2 = k := by omega
    simp [this, hdiv]

/-- C8: a cell that emits geometry with an outline of `n` offsets appends
exactly `n` top vertices, then the same ring again for the side tops and
the bottom ring for the side bottoms (`3 * n` vertices in all); its index
triples are the top fan followed by the side strip, where the fan has
exactly `n - 2` triples all anchored at the first emitted top vertex, and
the strip has exactly `2 * n` triples, two per consecutive (wrapping)
pair of outline positions forming a quad between the side-top and
side-bottom rings. -/
theorem c8_cell_emission_layout (spec : Spec) (chunk : Chunk) (vlen : Nat)
    (pos : CellPos) (vs : List Pt3) (ts : List Tri)
    (hg : cellGeometry spec chunk vlen pos = some (vs, ts))
    (hne : vs ≠ []) :
    ∃ n : Nat, 3 ≤ n ∧
      n = (top_outline_dir_offsets
            (cellShapeFor (chunk.origin.x + (spec.chunk_resolution.1 : Int))
              (chunk.origin.y + (spec.chunk_resolution.2.1 : Int)) pos.x
              pos.y)).length ∧
      vs =
        (top_outline_dir_offsets
            (cellShapeFor (chunk.origin.x + (spec.chunk_resolution.1 : Int))
              (chunk.origin.y + (spec.chunk_resolution.2.1 : Int)) pos.x
              pos.y)).map (fun o => spec.cell_top_vertex pos o) ++
          (top_outline_dir_offsets
              (cellShapeFor (chunk.origin.x + (spec.chunk_resolution.1 : Int))
                (chunk.origin.y + (spec.chunk_resolution.2.1 : Int)) pos.x
                pos.y)).map (fun o => spec.cell_top_vertex pos o) ++
          (top_outline_dir_offsets
              (cellShapeFor (chunk.origin.x + (spec.chunk_resolution.1 : Int))
                (chunk.origin.y + (spec.chunk_resolution.2.1 : Int)) pos.x
                pos.y)).map (fun o => spec.cell_bottom_vertex pos o) ∧
      vs.length = 3 * n ∧
      ts = top_fan_indices vlen n ++ side_indices vlen n ∧
      (top_fan_indices vlen n).length = n - 2 ∧
      (∀ t ∈ top_fan_indices vlen n,
        t.1 = vlen ∧ vlen < t.2.1 ∧ t.2.1 < vlen + n ∧ vlen < t.2.2 ∧
          t.2.2 < vlen + n) ∧
      (side_indices vlen n).length = 2 * n ∧
      ∀ k, k < n →
        (side_indices vlen n)[2 * k]? =
          some (vlen + n + k, vlen + 2 * n + k, vlen + n + (k + 1) % n) ∧
        (side_indices vlen n)[2 * k + 1]? =
          some (vlen + n + (k + 1) % n, vlen + 2 * n + k,
            vlen + 2 * n + (k + 1) % n) := by
  cases hcull : cull_cell spec chunk pos with
  | none =>
    rw [cellGeometry_fail_cull spec chunk vlen pos hcull] at hg
    cases hg
  | some b =>
    cases b with
    | true =>
      rw [cellGeometry_culled spec chunk vlen pos hcull] at hg
      exact absurd (Prod.ext_iff.mp (Option.some.inj hg)).1.symm hne
    | false =>
      cases hc : chunkCell spec chunk pos with
      | none =>
        rw [cellGeometry_fail_cell spec chunk vlen pos hcull hc] at hg
        cases hg
      | some c =>
        by_cases hair : c.material = Material.Air
        · rw [cellGeometry_air spec chunk vlen pos c hcull hc hair] at hg
          exact absurd (Prod.ext_iff.mp (Option.some.inj hg)).1.symm hne
        · rw [cellGeometry_emit spec chunk vlen pos c hcull hc hair] at hg
          obtain ⟨hv, ht⟩ := Prod.ext_iff.mp (Option.some.inj hg)
          dsimp only at hv ht
          refine ⟨(top_outline_dir_offsets
            (cellShapeFor (chunk.origin.x + (spec.chunk_resolution.1 : Int))
              (chunk.origin.y + (spec.chunk_resolution.2.1 : Int)) pos.x
              pos.y)).length,
            outline_length_ge_three _, rfl, ?_, ?_, ?_,
            top_fan_indices_length _ _, top_fan_indices_apex _ _,
            side_indices_length _ _, fun k hk => side_indices_get _ _ k hk⟩
          · exact hv.symm
          · rw [← hv]
            exact cellVertices_length spec pos _
          · exact ht.symm

/-- Witness for C8: the corner cell `(0, 0, 0)` of the all-Solid chunk
emits the `NORTH_PORTION` outline of length 4, a 2-triangle fan and an
8-triangle side strip whose first triangle bridges the rings at
vertices 4 and 8. -/
theorem c8_cell_emission_layout_witness :
    cellGeometry specW chunkSolid 0 ⟨0, 0, 0, 0⟩ =
      some (cellVertices specW ⟨0, 0, 0, 0⟩ CellShape.NORTH_PORTION,
        cellIndices 0 4) ∧
    (top_fan_indices 0 4).length = 2 ∧
    (side_indices 0 4).length = 8 ∧
    (side_indices 0 4)[0]? = some (4, 8, 5) := by
  have hg : cellGeometry specW chunkSolid 0 ⟨0, 0, 0, 0⟩ =
      some (cellVertices specW ⟨0, 0, 0, 0⟩ CellShape.NORTH_PORTION,
        cellIndices 0 4) := by decide
  obtain ⟨n, h3, hn, hvs, hlen, hts, hfanlen, hfan, hsidelen, hside⟩ :=
    c8_cell_emission_layout specW chunkSolid 0 ⟨0, 0, 0, 0⟩ _ _ hg (by decide)
  have hn4 : n = 4 := by rw [hn]; decide
  rw [hn4] at hfanlen hsidelen hside
  refine ⟨hg, hfanlen, hsidelen, ?_⟩
  exact (hside 0 (by decide)).1

/-! ### C9: every emitted index references an already-emitted vertex -/

/-- Every index triple of one cell references a vertex among the `3 * n`
the cell itself appends after position `v0`. -/
theorem cellIndices_bound (v0 n : Nat) :
    ∀ t ∈ cellIndices v0 n,
      t.1 < v0 + 3 * n ∧ t.2.1 < v0 + 3 * n ∧ t.2.2 < v0 + 3 * n := by
  intro t ht
  rw [cellIndices, List.mem_append] at ht
  rcases ht with h | h
  · simp only [top_fan_indices, List.mem_map, List.mem_range] at h
    obtain ⟨i, hi, rfl⟩ := h
    refine ⟨?_, ?_, ?_⟩ <;> simp only [] <;> omega
  · simp only [side_indices, List.mem_flatMap, List.mem_range,
      List.mem_cons, List.not_mem_nil, or_false] at h
    obtain ⟨ab, hab, h | h⟩ := h <;> subst h <;>
      refine ⟨?_, ?_, ?_⟩ <;> simp only [] <;>
      have := Nat.mod_lt (ab + 1) (show 0 < n by omega) <;> omega

/-- The output of the per-cell emission at vertex offset `vlen` only
references vertices below `vlen` plus what it appends itself. -/
theorem cellGeometry_index_bound (spec : Spec) (chunk : Chunk) (vlen : Nat)
    (pos : CellPos) (vs : List Pt3) (ts : List Tri)
    (hg : cellGeometry spec chunk vlen pos = some (vs, ts)) :
    ∀ t ∈ ts,
      t.1 < vlen + vs.length ∧ t.2.1 < vlen + vs.length ∧
        t.2.2 < vlen + vs.length := by
  cases hcull : cull_cell spec chunk pos with
  | none =>
    rw [cellGeometry_fail_cull spec chunk vlen pos hcull] at hg
    cases hg
  | some b =>
    cases b with
    | true =>
      rw [cellGeometry_culled spec chunk vlen pos hcull] at hg
      obtain ⟨hv, ht⟩ := Prod.ext_iff.mp (Option.some.inj hg)
      dsimp only at hv ht
      rw [← ht]
      intro t ht'
      cases ht'
    | false =>
      cases hc : chunkCell spec chunk pos with
      | none =>
        rw [cellGeometry_fail_cell spec chunk vlen pos hcull hc] at hg
        cases hg
      | some c =>
        by_cases hair : c.material = Material.Air
        · rw [cellGeometry_air spec chunk vlen pos c hcull hc hair] at hg
          obtain ⟨hv, ht⟩ := Prod.ext_iff.mp (Option.some.inj hg)
          dsimp only at hv ht
          rw [← ht]
          intro t ht'
          cases ht'
        · rw [cellGeometry_emit spec chunk vlen pos c hcull hc hair] at hg
          obtain ⟨hv, ht⟩ := Prod.ext_iff.mp (Option.some.inj hg)
          dsimp only at hv ht
          rw [← ht, ← hv, cellVertices_length spec pos]
          exact cellIndices_bound vlen _

/-- The fold of `make_chunk_geometry` preserves the in-bounds invariant
of the index buffer over any cell list. -/
theorem mcg_invariant (spec : Spec) (chunk : Chunk) :
    ∀ (cells : List CellPos) (acc out : List Pt3 × List Tri),
      (∀ t ∈ acc.2,
        t.1 < acc.1.length ∧ t.2.1 < acc.1.length ∧ t.2.2 < acc.1.length) →
      cells.foldlM (mcgStep spec chunk) acc = some out →
      ∀ t ∈ out.2,
        t.1 < out.1.length ∧ t.2.1 < out.1.length ∧
          t.2.2 < out.1.length := by
  intro cells
  induction cells with
  | nil =>
    intro acc out hinv hfold
    cases hfold
    exact hinv
  | cons pos rest ih =>
    intro acc out hinv hfold
    rw [List.foldlM_cons] at hfold
    cases hstep : mcgStep spec chunk acc pos with
    | none => rw [hstep] at hfold; cases hfold
    | some acc' =>
      rw [hstep] at hfold
      refine ih acc' out ?_ hfold
      unfold mcgStep at hstep
      cases hg : cellGeometry spec chunk acc.1.length pos with
      | none => rw [hg] at hstep; cases hstep
      | some vi =>
        rw [hg] at hstep
        have hacc : acc' = (acc.1 ++ vi.1, acc.2 ++ vi.2) :=
          (Option.some.inj hstep).symm
        subst hacc
        intro t ht
        rw [List.mem_append] at ht
        simp only [List.length_append]
        rcases ht with h | h
        · have := hinv t h
          omega
        · have := cellGeometry_index_bound spec chunk acc.1.length pos vi.1
            vi.2 (by rw [hg]) t h
          omega

/-- C9: every index triple pushed by `make_chunk_geometry` references
only vertices already pushed at the moment of emission; consequently,
for every chunk input that completes, every index in the final index
buffer is strictly below the final vertex-buffer length. -/
theorem c9_indices_in_bounds (spec : Spec) (chunk : Chunk)
    (out : List Pt3 × List Tri)
    (hg : make_chunk_geometry spec chunk [] [] = some out) :
    ∀ t ∈ out.2,
      t.1 < out.1.length ∧ t.2.1 < out.1.length ∧
        t.2.2 < out.1.length :=
  mcg_invariant spec chunk (cellRange spec chunk) ([], []) out
    (fun t ht => by cases ht) hg

/-- A chunk holding nothing but Air. -/
def chunkAllAir : Chunk :=
  { origin := ⟨0, 0, 0, 0⟩
    cells := fun _ => { material := Material.Air, shade := 0 } }

/-- Witness for C9: the all-Air chunk's geometry build completes, and the
theorem applies to its (empty) output buffers. -/
theorem c9_indices_in_bounds_witness :
    make_chunk_geometry specW chunkAllAir [] [] = some ([], []) ∧
    ∀ t ∈ ([] : List Tri), t.1 < 0 ∧ t.2.1 < 0 ∧ t.2.2 < 0 :=
  ⟨by decide, fun t ht =>
    c9_indices_in_bounds specW chunkAllAir ([], []) (by decide) t ht⟩

/-! ### C2: pan caches the edge-angle rather than recomputing it -/

/-- A representative position update for one discrete turn. Modelled from
the spec: `movement.rs` is not under `src/`, and `pan` (in the shipped
`cell_dweller.rs`) hands `turn_by_one_hex_edge` a mutable reference to the
stored position, so a turn may rewrite it; the spec's section 4.2 edge
case states that a pan can turn the entity through a pentagon, changing
the pentagon predicate mid-call. This update realizes such a transition:
it steps the stored position one cell in x, carrying a pentagon at the
pole `(0, 0)` onto the hexagon `(1, 0)`. -/
def tStep (p : CellPos) : CellPos :=
  { p with x := p.x + 1 }

/-- The pentagon starting state for the pan counterexamples. -/
def panStartPent : PanState :=
  { pos := ⟨0, 0, 0, 0⟩, yaw := 0 }

/-- A hexagon starting state for the pan witnesses. -/
def panStartHex : PanState :=
  { pos := ⟨0, 1, 0, 0⟩, yaw := 0 }

/-- Counterexample to C2 as stated: starting on the pentagon `(0, 0)`
with a pan input of `0.7 * pi`, the source's `pan` (edge-angle computed
once, before the loop) and the spec's per-turn-recomputed variant
disagree — the cached loop subtracts the pentagon angle twice and stops
at yaw `-pi/10`, while the recomputing loop uses the hexagon angle for
its second turn and stops at yaw `-pi/30`. -/
theorem c2_pan_threshold_counterexample :
    pan (32, 64) tStep 5 panStartPent (7 / 10) ≠
      panRecompute (32, 64) tStep 5 panStartPent (7 / 10) := by
  norm_num [pan, panRecompute, panLoop, panLoopRecompute, angleBetweenEdges,
    is_pentagon, tStep, panStartPent, abs_eq_max_neg, max_def,
    PanState.mk.injEq, CellPos.mk.injEq]

/-- Equal pentagon predicates give equal edge-angles. -/
theorem angleBetweenEdges_congr (res : Int × Int) (p q : CellPos)
    (h : is_pentagon p res = is_pentagon q res) :
    angleBetweenEdges res p = angleBetweenEdges res q := by
  unfold angleBetweenEdges
  rw [h]

/-- When the turn's position update preserves the pentagon predicate, the
recomputing loop collapses to the cached loop. -/
theorem panLoopRecompute_eq_panLoop (res : Int × Int)
    (t : CellPos → CellPos)
    (h : ∀ p, is_pentagon (t p) res = is_pentagon p res) (left : Bool) :
    ∀ (fuel : Nat) (s : PanState),
      panLoopRecompute res t left fuel s =
        panLoop t left (angleBetweenEdges res s.pos)
          (angleBetweenEdges res s.pos / 2) fuel s := by
  intro fuel
  induction fuel with
  | zero => intro s; rfl
  | succ n ih =>
    intro s
    rw [panLoopRecompute, panLoop]
    by_cases hc : |s.yaw| > angleBetweenEdges res s.pos / 2
    · rw [if_pos hc, if_pos hc, ih]
      rw [angleBetweenEdges_congr res (t s.pos) s.pos (h s.pos)]
    · rw [if_neg hc, if_neg hc]

/-- C2 amended: `pan` computes the edge-angle (and half-edge threshold)
once at entry, from the pentagon predicate at the entry position, and
uses that cached value for every iteration of the loop; this coincides
with the spec's per-turn recomputation precisely on turn behaviours that
preserve the pentagon predicate of the stored position. -/
theorem c2_pan_threshold_amended (res : Int × Int) (t : CellPos → CellPos)
    (h : ∀ p, is_pentagon (t p) res = is_pentagon p res) (fuel : Nat)
    (s : PanState) (q : Rat) :
    pan res t fuel s q = panRecompute res t fuel s q := by
  unfold pan panRecompute
  by_cases hq : q = 0
  · rw [if_pos hq, if_pos hq]
  · rw [if_neg hq, if_neg hq]
    by_cases h0 : 0 < q
    · rw [if_pos h0, if_pos h0, panLoopRecompute_eq_panLoop res t h true fuel]
    · rw [if_neg h0, if_neg h0, panLoopRecompute_eq_panLoop res t h false fuel]

/-- Witness for C2 amended: with the identity position update (which
trivially preserves the pentagon predicate) the two definitions agree on
a concrete run. -/
theorem c2_pan_threshold_amended_witness :
    pan (32, 64) (fun p => p) 5 panStartPent (7 / 10) =
      panRecompute (32, 64) (fun p => p) 5 panStartPent (7 / 10) :=
  c2_pan_threshold_amended (32, 64) (fun p => p) (fun _ => rfl) 5
    panStartPent (7 / 10)

/-! ### C7: termination of the pan loop -/

/-- If the yaw sits strictly below `-half` while the loop keeps
subtracting the positive edge-angle, the loop condition never clears: no
amount of fuel makes it return. -/
theorem panLoop_diverges_left (t : CellPos → CellPos) (angle half : Rat)
    (hangle : 0 < angle) :
    ∀ (fuel : Nat) (s : PanState), s.yaw < -half →
      panLoop t true angle half fuel s = none := by
  intro fuel
  induction fuel with
  | zero =>
    intro s hs
    have habs : half < |s.yaw| :=
      lt_of_lt_of_le (by linarith) (neg_le_abs s.yaw)
    rw [panLoop, if_pos habs]
  | succ n ih =>
    intro s hs
    have habs : half < |s.yaw| :=
      lt_of_lt_of_le (by linarith) (neg_le_abs s.yaw)
    rw [panLoop, if_pos habs]
    exact ih _ (show s.yaw - angle < -half by linarith)

/-- Counterexample to C7 as stated: with the yaw accumulator at `-pi`
(legitimately reachable state, e.g. handed over from turns under a larger
pentagon threshold) and a small positive pan input, the loop subtracts
the edge-angle away from zero forever: no fuel makes `pan` return, so
the loop does not terminate for every starting accumulator value. -/
theorem c7_pan_termination_counterexample :
    ¬ ∃ fuel : Nat,
      (pan (32, 64) tStep fuel { pos := ⟨0, 1, 0, 0⟩, yaw := -1 }
          (1 / 100)).isSome := by
  have hpent : is_pentagon (⟨0, 1, 0, 0⟩ : CellPos) (32, 64) = false := by
    decide
  rintro ⟨fuel, hf⟩
  rw [pan, if_neg (by norm_num), if_pos (by norm_num)] at hf
  rw [panLoop_diverges_left tStep _ _
      (by rw [angleBetweenEdges, hpent]; norm_num) fuel _
      (show (-1 : Rat) + 1 / 100 <
          -(angleBetweenEdges (32, 64) (⟨0, 1, 0, 0⟩ : CellPos) / 2) by
        rw [angleBetweenEdges, hpent]; norm_num)] at hf
  exact absurd hf (by simp)

/-- With the turn direction matching the sign of the excess yaw, the loop
steps the yaw down by one edge-angle per turn until it lands inside the
half-angle band, which it reaches within `k` turns once the overshoot is
at most `k` edge-angles. -/
theorem panLoop_term_left (t : CellPos → CellPos) (angle : Rat) :
    ∀ (k : Nat) (s : PanState), -(angle / 2) ≤ s.yaw →
      s.yaw ≤ angle / 2 + k * angle →
      ∃ s', panLoop t true angle (angle / 2) k s = some s' ∧
        |s'.yaw| ≤ angle / 2 := by
  intro k
  induction k with
  | zero =>
    intro s h1 h2
    have habs : |s.yaw| ≤ angle / 2 :=
      abs_le.mpr ⟨by linarith, by push_cast at h2; linarith⟩
    rw [panLoop, if_neg (not_lt.mpr habs)]
    exact ⟨s, rfl, habs⟩
  | succ k ih =>
    intro s h1 h2
    by_cases hc : angle / 2 < |s.yaw|
    · rw [panLoop, if_pos hc]
      have hy : angle / 2 < s.yaw := by
        by_contra hle
        push_neg at hle
        exact absurd (abs_le.mpr ⟨h1, hle⟩) (not_le.mpr hc)
      refine ih _ (show -(angle / 2) ≤ s.yaw - angle by linarith) ?_
      show s.yaw - angle ≤ angle / 2 + (k : Rat) * angle
      push_cast at h2
      linarith
    · rw [panLoop, if_neg hc]
      exact ⟨s, rfl, not_lt.mp hc⟩

/-- The `Right` loop is the `Left` loop run on the negated yaw. -/
theorem panLoop_right_eq_neg (t : CellPos → CellPos) (angle half : Rat) :
    ∀ (fuel : Nat) (s : PanState),
      panLoop t false angle half fuel s =
        Option.map (fun u => { pos := u.pos, yaw := -u.yaw })
          (panLoop t true angle half fuel { pos := s.pos, yaw := -s.yaw }) := by
  intro fuel
  induction fuel with
  | zero =>
    rintro ⟨p, y⟩
    rw [panLoop, panLoop]
    dsimp only
    rw [abs_neg]
    by_cases hc : half < |y|
    · rw [if_pos hc, if_pos hc]
      rfl
    · rw [if_neg hc, if_neg hc]
      simp
  | succ n ih =>
    rintro ⟨p, y⟩
    rw [panLoop, panLoop]
    dsimp only
    rw [abs_neg]
    by_cases hc : half < |y|
    · rw [if_pos hc, if_pos hc]
      show panLoop t false angle half n ⟨t p, y + angle⟩ =
        Option.map (fun u => { pos := u.pos, yaw := -u.yaw })
          (panLoop t true angle half n ⟨t p, -y - angle⟩)
      rw [ih ⟨t p, y + angle⟩]
      rw [show -(y + angle) = -y - angle by ring]
    · rw [if_neg hc, if_neg hc]
      simp

/-- C7 amended: the loop inside `pan` terminates — performing finitely
many discrete turns and returning with the residual yaw magnitude at or
below the half-edge-angle threshold — for every starting accumulator
value whose updated yaw does not oppose the turn direction: when the pan
input is positive the updated yaw must be at least `-half`, and when
negative at most `half` (both hold in particular whenever successive pan
calls alone drive the accumulator). Without that sign condition the loop
can diverge. -/
theorem c7_pan_termination_amended (res : Int × Int) (t : CellPos → CellPos)
    (p0 : CellPos) (y0 : Rat) (q : Rat) (hq : q ≠ 0)
    (hL : 0 < q → -(angleBetweenEdges res p0 / 2) ≤ y0 + q)
    (hR : q < 0 → y0 + q ≤ angleBetweenEdges res p0 / 2) :
    ∃ (fuel : Nat) (s' : PanState),
      pan res t fuel ⟨p0, y0⟩ q = some s' ∧
        |s'.yaw| ≤ angleBetweenEdges res p0 / 2 := by
  have hangle : 0 < angleBetweenEdges res p0 := by
    unfold angleBetweenEdges
    split <;> norm_num
  rcases hq.lt_or_lt with hneg | hpos
  · obtain ⟨k, hk⟩ := exists_nat_ge
      ((-(y0 + q) - angleBetweenEdges res p0 / 2) / angleBetweenEdges res p0)
    have hb : -(y0 + q) ≤
        angleBetweenEdges res p0 / 2 + k * angleBetweenEdges res p0 := by
      rw [div_le_iff₀ hangle] at hk
      linarith
    obtain ⟨s', hs', habs⟩ := panLoop_term_left t _ k ⟨p0, -(y0 + q)⟩
      (show -(angleBetweenEdges res p0 / 2) ≤ -(y0 + q) by
        have := hR hneg
        linarith) hb
    refine ⟨k, (⟨s'.pos, -s'.yaw⟩ : PanState), ?_, ?_⟩
    · rw [pan, if_neg hq, if_neg (not_lt.mpr hneg.le)]
      show panLoop t false (angleBetweenEdges res p0)
          (angleBetweenEdges res p0 / 2) k ⟨p0, y0 + q⟩ =
        some ⟨s'.pos, -s'.yaw⟩
      rw [panLoop_right_eq_neg t _ _ k ⟨p0, y0 + q⟩]
      show Option.map (fun u => ({ pos := u.pos, yaw := -u.yaw } : PanState))
          (panLoop t true (angleBetweenEdges res p0)
            (angleBetweenEdges res p0 / 2) k ⟨p0, -(y0 + q)⟩) =
        some (⟨s'.pos, -s'.yaw⟩ : PanState)
      rw [hs']
      rfl
    · show |(-s'.yaw)| ≤ angleBetweenEdges res p0 / 2
      rwa [abs_neg]
  · obtain ⟨k, hk⟩ := exists_nat_ge
      ((y0 + q - angleBetweenEdges res p0 / 2) / angleBetweenEdges res p0)
    have hb : y0 + q ≤
        angleBetweenEdges res p0 / 2 + k * angleBetweenEdges res p0 := by
      rw [div_le_iff₀ hangle] at hk
      linarith
    obtain ⟨s', hs', habs⟩ := panLoop_term_left t _ k ⟨p0, y0 + q⟩
      (hL hpos) hb
    refine ⟨k, s', ?_, habs⟩
    rw [pan, if_neg hq, if_pos hpos]
    exact hs'

/-- Witness for C7 amended: a pan of `0.7 * pi` from a clean hexagon
state terminates within the residual bound. -/
theorem c7_pan_termination_amended_witness :
    ∃ (fuel : Nat) (s' : PanState),
      pan (32, 64) tStep fuel ⟨⟨0, 1, 0, 0⟩, 0⟩ (7 / 10) = some s' ∧
        |s'.yaw| ≤ angleBetweenEdges (32, 64) ⟨0, 1, 0, 0⟩ / 2 := by
  have hpent : is_pentagon (⟨0, 1, 0, 0⟩ : CellPos) (32, 64) = false := by
    decide
  exact c7_pan_termination_amended (32, 64) tStep ⟨0, 1, 0, 0⟩ 0 (7 / 10)
    (by norm_num)
    (fun _ => by rw [angleBetweenEdges, hpent]; norm_num)
    (fun h => absurd h (by norm_num))

end Planetkit
